import Mathlib

/-!
Verification model of the ordinals-api read-side data model and statistics
layer.  The visible sources are `src/pg/types.ts` (the schema and type
surface) and `src/api/routes/stats.ts` (the statistics HTTP routes).  The
core operations they refer to (`appendLocation`, `rollbackFromHeight`,
`getInscriptionCountPerBlock`, `getMintFlow`) are implemented in parts of
the repository that are not included under `src/`, so they are modelled
here from the specification text, while the route handlers and the
`block_offset` validation pattern are translated directly from
`src/api/routes/stats.ts`.
-/

/-! ## Order keys

Ordering key of a Location entry: `(block_height, tx_index,
block_transfer_index)`, compared lexicographically.  The source column
`block_transfer_index` is nullable (`number | null` in `DbLocationInsert`);
the model represents `null` as `0`. -/

structure OrderKey where
  block_height : Nat
  tx_index : Nat
  block_transfer_index : Nat
deriving DecidableEq, Repr

namespace OrderKey

/-- Strict lexicographic order on `(block_height, tx_index, block_transfer_index)`. -/
def Lt (a b : OrderKey) : Prop :=
  a.block_height < b.block_height ∨
    (a.block_height = b.block_height ∧
      (a.tx_index < b.tx_index ∨
        (a.tx_index = b.tx_index ∧ a.block_transfer_index < b.block_transfer_index)))

instance (a b : OrderKey) : Decidable (Lt a b) := by
  unfold Lt; infer_instance

/-- Non-strict order: strictly smaller or equal. -/
def Le (a b : OrderKey) : Prop := Lt a b ∨ a = b

instance (a b : OrderKey) : Decidable (Le a b) := by
  unfold Le; infer_instance

theorem lt_irrefl (a : OrderKey) : ¬ Lt a a := by
  simp only [Lt]; omega

theorem lt_trans {a b c : OrderKey} (h₁ : Lt a b) (h₂ : Lt b c) : Lt a c := by
  simp only [Lt] at *; omega

theorem lt_asymm {a b : OrderKey} (h : Lt a b) : ¬ Lt b a := by
  simp only [Lt] at *; omega

theorem not_lt_of_le {a b : OrderKey} (h : Le a b) : ¬ Lt b a := by
  rcases h with h | rfl
  · exact lt_asymm h
  · exact lt_irrefl a

theorem lt_or_eq_of_not_lt {a b : OrderKey} (h : ¬ Lt a b) : Lt b a ∨ a = b := by
  cases a with
  | mk ah at' ab =>
    cases b with
    | mk bh bt bb =>
      simp only [Lt, mk.injEq] at *
      omega

end OrderKey

/-! ## Location events / entries

The ledger stores one entry per ownership event; the entry is the accepted
event record.  Fields follow `DbLocationInsert` in `src/pg/types.ts`
(`genesis_id`, `block_height`, `block_hash`, `tx_id`, `tx_index`,
`address`, `output`, `offset`, `prev_output`, `prev_offset`, `value`,
`timestamp`, `transfer_type`, `block_transfer_index`), with numeric wire
types modelled as `Nat`.  `DbLocationInsert` carries no `prev_value`
column, but the specification's append contract checks
`prev_output`/`prev_offset`/`prev_value`, so the modelled event carries
`prev_value` as well.  Whether an event is a genesis reveal is indicated in
the source by the presence of the `inscription` payload in
`DbRevealInsert`; the model represents that with the `genesis` flag. -/

inductive DbLocationTransferType where
  | transferred
  | spentInFees
  | burnt
deriving DecidableEq, Repr

structure LocEvent where
  genesis_id : String
  block_height : Nat
  block_hash : String
  tx_id : String
  tx_index : Nat
  address : Option String
  output : String
  offset : Option Nat
  prev_output : Option String
  prev_offset : Option Nat
  value : Option Nat
  prev_value : Option Nat
  timestamp : Nat
  transfer_type : DbLocationTransferType
  block_transfer_index : Nat
  genesis : Bool
deriving DecidableEq, Repr

/-- Order key of an event. -/
def LocEvent.key (e : LocEvent) : OrderKey :=
  ⟨e.block_height, e.tx_index, e.block_transfer_index⟩

/-- Chaining condition between consecutive per-inscription entries: the
later entry's declared predecessor fields match the earlier entry's
location fields. -/
def prevMatch (a b : LocEvent) : Prop :=
  b.prev_output = some a.output ∧ b.prev_offset = a.offset ∧ b.prev_value = a.value

instance (a b : LocEvent) : Decidable (prevMatch a b) := by
  unfold prevMatch; infer_instance

/-! ## Ledger state

The Location ledger (list of accepted entries, in insertion order) plus
the denormalized Current-Location Pointer table (`DbLocationPointer`),
modelled as an association list keyed by `genesis_id` whose value mirrors
the pointed-to ledger entry. -/

structure Ledger where
  locations : List LocEvent
  pointers : List (String × LocEvent)
deriving DecidableEq, Repr

def Ledger.empty : Ledger := ⟨[], []⟩

/-- Lookup of an inscription's Current-Location Pointer. -/
def plookup (gid : String) : List (String × LocEvent) → Option LocEvent
  | [] => none
  | (g, p) :: rest => if g = gid then some p else plookup gid rest

/-- Replace the pointer for `gid` in place. -/
def updatePointer (ps : List (String × LocEvent)) (gid : String) (e : LocEvent) :
    List (String × LocEvent) :=
  ps.map fun q => if q.1 = gid then (gid, e) else q

/-- Per-inscription view of the ledger: the entries belonging to `gid` in
insertion order. -/
def entriesOf (st : Ledger) (gid : String) : List LocEvent :=
  st.locations.filter fun e => e.genesis_id = gid

/-- Error taxonomy of the ledger append path (spec §7).  `RangeUnresolvable`
belongs to the statistics side and is represented by `Option` results
there. -/
inductive LedgerError where
  | DuplicateOrStaleEvent
  | ChainDiscontinuity
deriving DecidableEq, Repr

/-- Modelled from the spec: `appendLocation(event)` (spec §4.1) — the
implementation in the repository's pg store is not under `src/`.  Checks,
in order: (a)/(b) an inscription with no pointer accepts only a genesis
entry; an existing pointer rejects any event whose order key is not
strictly greater with `DuplicateOrStaleEvent`; (c) a non-genesis event must
declare `prev_output`/`prev_offset`/`prev_value` matching the current
location's `output`/`offset`/`value`, else `ChainDiscontinuity`; a genesis
event after the first entry is likewise a discontinuity.  On success the
entry is appended and the Current-Location Pointer advanced in the same
unit of work. -/
def appendLocation (st : Ledger) (e : LocEvent) : Except LedgerError Ledger :=
  match plookup e.genesis_id st.pointers with
  | none =>
      if e.genesis then
        .ok ⟨st.locations ++ [e], st.pointers ++ [(e.genesis_id, e)]⟩
      else
        .error .ChainDiscontinuity
  | some p =>
      if OrderKey.Lt p.key e.key then
        if e.genesis = false ∧ prevMatch p e then
          .ok ⟨st.locations ++ [e], updatePointer st.pointers e.genesis_id e⟩
        else
          .error .ChainDiscontinuity
      else
        .error .DuplicateOrStaleEvent

/-- Ingestion wrapper: a failed append leaves the ledger unchanged and
reports the error. -/
def ingest (st : Ledger) (e : LocEvent) : Ledger × Option LedgerError :=
  match appendLocation st e with
  | .ok s => (s, none)
  | .error er => (st, some er)

/-- Fold step selecting the entry with the larger order key. -/
def pickMax (acc : Option LocEvent) (e : LocEvent) : Option LocEvent :=
  match acc with
  | none => some e
  | some a => if OrderKey.Lt a.key e.key then some e else some a

/-- Entry with the largest remaining order key among `gid`'s entries. -/
def maxKeyEntry (locs : List LocEvent) (gid : String) : Option LocEvent :=
  (locs.filter fun e => e.genesis_id = gid).foldl pickMax none

/-- Did the rollback at height `h` delete any of `gid`'s entries? -/
def affected (st : Ledger) (h : Nat) (gid : String) : Bool :=
  st.locations.any fun e => e.genesis_id = gid && h ≤ e.block_height

/-- Modelled from the spec: `rollbackFromHeight(height)` (spec §4.1) — the
implementation in the repository's pg store is not under `src/`.  Deletes
all Location entries with `block_height ≥ height`; every affected
inscription's pointer is recomputed as the entry with the largest remaining
order key, or deleted when no entries remain; unaffected pointers are kept. -/
def rollbackFromHeight (st : Ledger) (h : Nat) : Ledger :=
  let locs := st.locations.filter fun e => e.block_height < h
  { locations := locs
    pointers := st.pointers.filterMap fun q =>
      (if affected st h q.1 then maxKeyEntry locs q.1 else some q.2).map fun e => (q.1, e) }

/-- Replay of an event sequence through `appendLocation`, stopping at the
first error. -/
def replay (st : Ledger) : List LocEvent → Except LedgerError Ledger
  | [] => .ok st
  | e :: rest =>
      match appendLocation st e with
      | .ok s => replay s rest
      | .error er => .error er

/-- States reachable from the empty ledger by successful appends and
rollbacks. -/
inductive Reachable : Ledger → Prop where
  | empty : Reachable Ledger.empty
  | append {st st' : Ledger} {e : LocEvent} :
      Reachable st → appendLocation st e = .ok st' → Reachable st'
  | rollback {st : Ledger} (h : Nat) :
      Reachable st → Reachable (rollbackFromHeight st h)

/-! ## Well-formedness of ledger states -/

/-- Strict order-key relation between entries. -/
def keyLt (a b : LocEvent) : Prop := OrderKey.Lt a.key b.key

instance : IsTrans LocEvent keyLt := ⟨fun _ _ _ => OrderKey.lt_trans⟩

/-- Height comparison between entries. -/
def heightLe (a b : LocEvent) : Prop := a.block_height ≤ b.block_height

theorem keyLt_heightLe {a b : LocEvent} (h : keyLt a b) : heightLe a b := by
  simp only [keyLt, OrderKey.Lt, LocEvent.key, heightLe] at *
  omega

/-- A well-formed per-inscription chain: strictly increasing order keys,
consecutive entries linked by matching predecessor fields, genesis first
and only first. -/
def GoodChain (l : List LocEvent) : Prop :=
  l.Chain' keyLt ∧ l.Chain' prevMatch ∧
    (∀ e ∈ l.head?, e.genesis = true) ∧ ∀ e ∈ l.tail, e.genesis = false

/-- Ledger well-formedness: every per-inscription chain is good, the
pointer table has duplicate-free keys, and every pointer lookup mirrors
the last (maximal-key) entry of its chain. -/
def WF (st : Ledger) : Prop :=
  (∀ gid, GoodChain (entriesOf st gid)) ∧
    (∀ gid, plookup gid st.pointers = (entriesOf st gid).getLast?) ∧
    (st.pointers.map Prod.fst).Nodup

/-! ### Association-list lemmas for the pointer table -/

theorem plookup_eq_none {gid : String} :
    ∀ {ps : List (String × LocEvent)}, plookup gid ps = none ↔ gid ∉ ps.map Prod.fst := by
  intro ps
  induction ps with
  | nil => simp [plookup]
  | cons q rest ih =>
      cases q with
      | mk g p =>
          by_cases hg : g = gid
          · subst hg; simp [plookup]
          · have hg' : ¬ gid = g := fun h => hg h.symm
            simp only [plookup, if_neg hg, List.map_cons, List.mem_cons, ih]
            constructor
            · intro h hmem
              rcases hmem with h1 | h2
              · exact hg' h1
              · exact h h2
            · intro h hmem
              exact h (Or.inr hmem)

theorem plookup_append (gid : String) (ps qs : List (String × LocEvent)) :
    plookup gid (ps ++ qs) =
      match plookup gid ps with
      | some p => some p
      | none => plookup gid qs := by
  induction ps with
  | nil => simp [plookup]
  | cons q rest ih =>
      cases q with
      | mk g p =>
          by_cases hg : g = gid
          · subst hg; simp [plookup]
          · simp [plookup, hg, ih]

theorem plookup_updatePointer_self {ps : List (String × LocEvent)} {gid : String}
    {p : LocEvent} (hp : plookup gid ps = some p) (e : LocEvent) :
    plookup gid (updatePointer ps gid e) = some e := by
  induction ps with
  | nil => simp [plookup] at hp
  | cons q rest ih =>
      cases q with
      | mk g p' =>
          simp only [updatePointer, List.map_cons]
          by_cases hg : g = gid
          · subst hg
            rw [if_pos rfl]
            simp [plookup]
          · rw [if_neg hg]
            simp only [plookup, if_neg hg] at hp ⊢
            simpa [updatePointer] using ih hp

theorem plookup_updatePointer_ne {ps : List (String × LocEvent)} {gid g' : String}
    (hne : g' ≠ gid) (e : LocEvent) :
    plookup g' (updatePointer ps gid e) = plookup g' ps := by
  induction ps with
  | nil => simp [updatePointer, plookup]
  | cons q rest ih =>
      cases q with
      | mk g p' =>
          simp only [updatePointer, List.map_cons]
          by_cases hg : g = gid
          · subst hg
            rw [if_pos rfl]
            have h1 : ¬ g = g' := fun h => hne h.symm
            simp only [plookup, if_neg h1]
            simpa [updatePointer] using ih
          · rw [if_neg hg]
            by_cases hgg : g = g'
            · subst hgg; simp [plookup]
            · simp only [plookup, if_neg hgg]
              simpa [updatePointer] using ih

theorem updatePointer_keys (ps : List (String × LocEvent)) (gid : String) (e : LocEvent) :
    (updatePointer ps gid e).map Prod.fst = ps.map Prod.fst := by
  induction ps with
  | nil => simp [updatePointer]
  | cons q rest ih =>
      cases q with
      | mk g p' =>
          by_cases hg : g = gid
          · subst hg; simpa [updatePointer] using ih
          · simpa [updatePointer, hg] using ih

theorem filterMap_keys_sublist (f : String → LocEvent → Option LocEvent)
    (ps : List (String × LocEvent)) :
    ((ps.filterMap fun q => (f q.1 q.2).map fun e => (q.1, e)).map Prod.fst).Sublist
      (ps.map Prod.fst) := by
  induction ps with
  | nil => simp
  | cons q rest ih =>
      cases hf : f q.1 q.2 with
      | none =>
          simp only [List.filterMap_cons, hf, Option.map_none', List.map_cons]
          exact ih.trans (List.sublist_cons_self _ _)
      | some e =>
          simp only [List.filterMap_cons, hf, Option.map_some', List.map_cons]
          exact ih.cons₂ _

theorem plookup_filterMap (f : String → LocEvent → Option LocEvent)
    {ps : List (String × LocEvent)} (hnd : (ps.map Prod.fst).Nodup) (gid : String) :
    plookup gid (ps.filterMap fun q => (f q.1 q.2).map fun e => (q.1, e)) =
      (plookup gid ps).bind (f gid) := by
  induction ps with
  | nil => simp [plookup]
  | cons q rest ih =>
      cases q with
      | mk g p =>
          simp only [List.map_cons, List.nodup_cons] at hnd
          by_cases hg : g = gid
          · subst hg
            have hrest : plookup g rest = none := plookup_eq_none.mpr hnd.1
            cases hf : f g p with
            | none =>
                simp only [List.filterMap_cons, hf, Option.map_none']
                rw [ih hnd.2, hrest]
                simp [plookup, hf]
            | some e =>
                simp [List.filterMap_cons, hf, plookup]
          · cases hf : f g p with
            | none =>
                simp only [List.filterMap_cons, hf, Option.map_none', plookup, if_neg hg]
                exact ih hnd.2
            | some e =>
                simp only [List.filterMap_cons, hf, Option.map_some', plookup, if_neg hg]
                exact ih hnd.2

/-! ### Generic ordered-list lemmas -/

theorem head?_takeWhile_eq {α : Type} (p : α → Bool) (t : List α) (y : α)
    (hy : (t.takeWhile p).head? = some y) : t.head? = some y := by
  cases t with
  | nil => simp at hy
  | cons b t' =>
      rw [List.takeWhile_cons] at hy
      by_cases hb : p b = true
      · rw [if_pos hb] at hy
        simpa using hy
      · rw [if_neg hb] at hy
        simp at hy

theorem mem_of_mem_takeWhile {α : Type} (p : α → Bool) {a : α} :
    ∀ {l : List α}, a ∈ l.takeWhile p → a ∈ l := by
  intro l
  induction l with
  | nil => simp
  | cons b t ih =>
      rw [List.takeWhile_cons]
      by_cases hb : p b = true
      · rw [if_pos hb]
        intro h
        rcases List.mem_cons.mp h with h1 | h2
        · exact List.mem_cons.mpr (Or.inl h1)
        · exact List.mem_cons.mpr (Or.inr (ih h2))
      · rw [if_neg hb]
        intro h
        simp at h

theorem chain'_takeWhile {α : Type} {R : α → α → Prop} (p : α → Bool) :
    ∀ l : List α, l.Chain' R → (l.takeWhile p).Chain' R := by
  intro l
  induction l with
  | nil => intro _; simp
  | cons a t ih =>
      intro h
      rw [List.chain'_cons'] at h
      rw [List.takeWhile_cons]
      by_cases ha : p a = true
      · rw [if_pos ha, List.chain'_cons']
        refine ⟨?_, ih h.2⟩
        intro y hy
        exact h.1 y (head?_takeWhile_eq p t y hy)
      · rw [if_neg ha]
        exact List.chain'_nil

theorem filter_eq_takeWhile_of_pairwise {α : Type} {le : α → α → Prop} (p : α → Bool)
    (hp : ∀ a b, le a b → p b = true → p a = true) :
    ∀ l : List α, l.Pairwise le → l.filter p = l.takeWhile p := by
  intro l
  induction l with
  | nil => simp
  | cons a t ih =>
      intro hpw
      rw [List.pairwise_cons] at hpw
      rw [List.filter_cons, List.takeWhile_cons]
      by_cases ha : p a = true
      · rw [if_pos ha, if_pos ha, ih hpw.2]
      · rw [if_neg ha, if_neg ha]
        rw [List.filter_eq_nil_iff]
        intro b hb hpb
        exact ha (hp a b (hpw.1 b hb) hpb)

theorem filter_not_eq_dropWhile_of_pairwise {α : Type} {le : α → α → Prop} (p : α → Bool)
    (hp : ∀ a b, le a b → p b = true → p a = true) :
    ∀ l : List α, l.Pairwise le → l.filter (fun a => ! p a) = l.dropWhile p := by
  intro l
  induction l with
  | nil => simp
  | cons a t ih =>
      intro hpw
      rw [List.pairwise_cons] at hpw
      rw [List.filter_cons, List.dropWhile_cons]
      by_cases ha : p a = true
      · rw [if_pos ha]
        have : (! p a) = false := by simp [ha]
        rw [if_neg (by simp [this])]
        exact ih hpw.2
      · rw [if_neg ha]
        have hna : (! p a) = true := by simp [Bool.not_eq_true'] at *; exact ha
        rw [if_pos hna]
        have : t.filter (fun a => ! p a) = t := by
          rw [List.filter_eq_self]
          intro b hb
          by_cases hpb : p b = true
          · exact absurd (hp a b (hpw.1 b hb) hpb) ha
          · simp [Bool.not_eq_true'] at *; exact hpb
        rw [this]

theorem foldl_pickMax_sorted :
    ∀ (l : List LocEvent) (a : LocEvent),
      (a :: l).Chain' keyLt → l.foldl pickMax (some a) = (a :: l).getLast? := by
  intro l
  induction l with
  | nil => intro a _; simp
  | cons b l' ih =>
      intro a h
      rw [List.chain'_cons] at h
      have hab : OrderKey.Lt a.key b.key := h.1
      show List.foldl pickMax (pickMax (some a) b) l' = _
      have hp : pickMax (some a) b = some b := by
        simp [pickMax, if_pos hab]
      rw [hp, List.getLast?_cons_cons]
      exact ih b h.2

theorem maxKeyEntry_eq_getLast (locs : List LocEvent) (gid : String)
    (hs : (locs.filter fun e => e.genesis_id = gid).Chain' keyLt) :
    maxKeyEntry locs gid = (locs.filter fun e => e.genesis_id = gid).getLast? := by
  unfold maxKeyEntry
  cases hl : locs.filter fun e => e.genesis_id = gid with
  | nil => simp
  | cons a t =>
      rw [hl] at hs
      show List.foldl pickMax (pickMax none a) t = _
      have : pickMax none a = some a := rfl
      rw [this]
      exact foldl_pickMax_sorted t a hs

/-! ### Per-inscription chain lemmas -/

theorem entriesOf_mk_append_self (st : Ledger) (e : LocEvent) (ps' : List (String × LocEvent)) :
    entriesOf ⟨st.locations ++ [e], ps'⟩ e.genesis_id = entriesOf st e.genesis_id ++ [e] := by
  simp [entriesOf, List.filter_append]

theorem entriesOf_mk_append_ne (st : Ledger) (e : LocEvent) (ps' : List (String × LocEvent))
    (gid : String) (hne : gid ≠ e.genesis_id) :
    entriesOf ⟨st.locations ++ [e], ps'⟩ gid = entriesOf st gid := by
  have : ¬ (e.genesis_id = gid) := fun h' => hne h'.symm
  simp [entriesOf, List.filter_append, this]

theorem goodChain_singleton {e : LocEvent} (hg : e.genesis = true) : GoodChain [e] := by
  refine ⟨by simp, by simp, ?_, by simp⟩
  intro x hx
  simp at hx
  subst hx
  exact hg

theorem GoodChain.snoc {l : List LocEvent} {p e : LocEvent} (hgc : GoodChain l)
    (hl : l.getLast? = some p) (hk : keyLt p e) (hpm : prevMatch p e)
    (hng : e.genesis = false) : GoodChain (l ++ [e]) := by
  obtain ⟨a, t, rfl⟩ : ∃ a t, l = a :: t := by
    cases l with
    | nil => simp at hl
    | cons a t => exact ⟨a, t, rfl⟩
  obtain ⟨hc1, hc2, hhd, htl⟩ := hgc
  refine ⟨?_, ?_, ?_, ?_⟩
  · rw [List.chain'_append]
    refine ⟨hc1, by simp, ?_⟩
    intro x hx y hy
    simp at hy
    subst hy
    rw [hl] at hx
    simp at hx
    subst hx
    exact hk
  · rw [List.chain'_append]
    refine ⟨hc2, by simp, ?_⟩
    intro x hx y hy
    simp at hy
    subst hy
    rw [hl] at hx
    simp at hx
    subst hx
    exact hpm
  · intro x hx
    simp at hx
    subst hx
    exact hhd a (by simp)
  · intro x hx
    simp only [List.cons_append, List.tail_cons] at hx
    rcases List.mem_append.mp hx with h1 | h2
    · exact htl x h1
    · simp at h2
      subst h2
      exact hng

/-! ### Preservation of well-formedness -/

theorem wf_empty : WF Ledger.empty := by
  refine ⟨?_, ?_, ?_⟩
  · intro gid
    simp [entriesOf, Ledger.empty, GoodChain]
  · intro gid
    simp [entriesOf, Ledger.empty, plookup]
  · simp [Ledger.empty]

theorem appendLocation_WF {st st' : Ledger} {e : LocEvent}
    (hwf : WF st) (h : appendLocation st e = .ok st') : WF st' := by
  obtain ⟨hchains, hptr, hnd⟩ := hwf
  unfold appendLocation at h
  cases hlk : plookup e.genesis_id st.pointers with
  | none =>
      rw [hlk] at h
      by_cases hg : e.genesis = true
      · rw [if_pos hg] at h
        injection h with h'
        subst h'
        have hempty : entriesOf st e.genesis_id = [] := by
          have := hptr e.genesis_id
          rw [hlk] at this
          exact List.getLast?_eq_none_iff.mp this.symm
        refine ⟨?_, ?_, ?_⟩
        · intro gid
          by_cases hgid : gid = e.genesis_id
          · subst hgid
            rw [entriesOf_mk_append_self, hempty]
            exact goodChain_singleton hg
          · rw [entriesOf_mk_append_ne st e _ gid hgid]
            exact hchains gid
        · intro gid
          show plookup gid (st.pointers ++ [(e.genesis_id, e)]) = _
          rw [plookup_append]
          by_cases hgid : gid = e.genesis_id
          · subst hgid
            rw [hlk, entriesOf_mk_append_self, hempty]
            simp [plookup]
          · rw [entriesOf_mk_append_ne st e _ gid hgid]
            have hne : ¬ (e.genesis_id = gid) := fun h' => hgid h'.symm
            cases hpg : plookup gid st.pointers with
            | none =>
                simp [plookup, hne]
                rw [← hptr gid, hpg]
            | some p => rw [← hptr gid, hpg]
        · show ((st.pointers ++ [(e.genesis_id, e)]).map Prod.fst).Nodup
          rw [List.map_append]
          rw [List.nodup_append]
          refine ⟨hnd, by simp, ?_⟩
          intro x hx
          simp only [List.map_cons, List.map_nil, List.mem_singleton]
          intro hx'
          subst hx'
          exact absurd hx (plookup_eq_none.mp hlk)
      · rw [if_neg hg] at h
        cases h
  | some p =>
      rw [hlk] at h
      dsimp only at h
      by_cases hlt : OrderKey.Lt p.key e.key
      · rw [if_pos hlt] at h
        by_cases hcond : e.genesis = false ∧ prevMatch p e
        · rw [if_pos hcond] at h
          injection h with h'
          subst h'
          have hlast : (entriesOf st e.genesis_id).getLast? = some p := by
            rw [← hptr, hlk]
          refine ⟨?_, ?_, ?_⟩
          · intro gid
            by_cases hgid : gid = e.genesis_id
            · subst hgid
              rw [entriesOf_mk_append_self]
              exact (hchains _).snoc hlast hlt hcond.2 hcond.1
            · rw [entriesOf_mk_append_ne st e _ gid hgid]
              exact hchains gid
          · intro gid
            by_cases hgid : gid = e.genesis_id
            · subst hgid
              show plookup _ (updatePointer st.pointers _ e) = _
              rw [plookup_updatePointer_self hlk e, entriesOf_mk_append_self]
              rw [List.getLast?_concat]
            · show plookup gid (updatePointer st.pointers _ e) = _
              rw [plookup_updatePointer_ne hgid e, entriesOf_mk_append_ne st e _ gid hgid]
              exact hptr gid
          · show ((updatePointer st.pointers _ e).map Prod.fst).Nodup
            rw [updatePointer_keys]
            exact hnd
        · rw [if_neg hcond] at h
          cases h
      · rw [if_neg hlt] at h
        cases h

theorem entriesOf_rollback (st : Ledger) (h : Nat) (gid : String) :
    entriesOf (rollbackFromHeight st h) gid =
      (entriesOf st gid).filter fun e => e.block_height < h := by
  simp only [rollbackFromHeight, entriesOf, List.filter_filter]
  congr 1
  funext e
  rw [Bool.and_comm]

theorem rollback_WF {st : Ledger} (hwf : WF st) (h : Nat) : WF (rollbackFromHeight st h) := by
  obtain ⟨hchains, hptr, hnd⟩ := hwf
  have hp : ∀ a b : LocEvent, heightLe a b →
      decide (b.block_height < h) = true → decide (a.block_height < h) = true := by
    intro a b hab hb
    simp only [heightLe] at hab
    simp only [decide_eq_true_eq] at hb ⊢
    omega
  have hpw : ∀ gid, (entriesOf st gid).Pairwise heightLe := fun gid =>
    (List.chain'_iff_pairwise.mp (hchains gid).1).imp keyLt_heightLe
  have htw : ∀ gid, entriesOf (rollbackFromHeight st h) gid =
      (entriesOf st gid).takeWhile fun e => e.block_height < h := by
    intro gid
    rw [entriesOf_rollback]
    exact filter_eq_takeWhile_of_pairwise _ hp _ (hpw gid)
  have hshape : (rollbackFromHeight st h).pointers =
      st.pointers.filterMap fun q =>
        ((fun gid p => if affected st h gid then
            maxKeyEntry (st.locations.filter fun e => e.block_height < h) gid
          else some p) q.1 q.2).map fun e => (q.1, e) := rfl
  refine ⟨?_, ?_, ?_⟩
  · intro gid
    obtain ⟨hc1, hc2, hhd, htl⟩ := hchains gid
    refine ⟨?_, ?_, ?_, ?_⟩
    · rw [entriesOf_rollback]
      exact hc1.sublist (List.filter_sublist _)
    · rw [htw]
      exact chain'_takeWhile _ _ hc2
    · rw [htw]
      intro x hx
      exact hhd x (head?_takeWhile_eq _ _ x hx)
    · rw [htw]
      cases hl : entriesOf st gid with
      | nil => simp
      | cons a t =>
          rw [hl] at htl
          rw [List.takeWhile_cons]
          by_cases hpa : decide (a.block_height < h) = true
          · rw [if_pos hpa]
            intro x hx
            simp only [List.tail_cons] at hx
            exact htl x (mem_of_mem_takeWhile _ hx)
          · rw [if_neg hpa]
            intro x hx
            simp at hx
  · intro gid
    rw [hshape, plookup_filterMap
      (fun gid p => if affected st h gid then
        maxKeyEntry (st.locations.filter fun e => e.block_height < h) gid
      else some p) hnd gid]
    cases hpg : plookup gid st.pointers with
    | none =>
        have hnil : entriesOf st gid = [] := by
          have := hptr gid
          rw [hpg] at this
          exact List.getLast?_eq_none_iff.mp this.symm
        rw [entriesOf_rollback, hnil]
        simp
    | some p =>
        simp only [Option.some_bind]
        by_cases haff : affected st h gid = true
        · rw [if_pos haff]
          have hsorted :
              ((st.locations.filter fun e => e.block_height < h).filter
                fun e => e.genesis_id = gid).Chain' keyLt := by
            have heq : (st.locations.filter fun e => e.block_height < h).filter
                (fun e => e.genesis_id = gid) = entriesOf (rollbackFromHeight st h) gid := rfl
            rw [heq, entriesOf_rollback]
            exact (hchains gid).1.sublist (List.filter_sublist _)
          rw [maxKeyEntry_eq_getLast _ _ hsorted]
          rfl
        · rw [if_neg haff]
          have hall : ∀ e ∈ entriesOf st gid, decide (e.block_height < h) = true := by
            intro e he
            simp only [entriesOf, List.mem_filter, decide_eq_true_eq] at he
            simp only [affected, List.any_eq_true, Bool.and_eq_true, decide_eq_true_eq] at haff
            by_contra hlt'
            simp only [decide_eq_true_eq] at hlt'
            exact haff ⟨e, he.1, he.2, by omega⟩
          rw [entriesOf_rollback, List.filter_eq_self.mpr hall]
          rw [← hptr gid, hpg]
  · rw [hshape]
    exact (filterMap_keys_sublist
      (fun gid p => if affected st h gid then
        maxKeyEntry (st.locations.filter fun e => e.block_height < h) gid
      else some p) st.pointers).nodup hnd

/-- Every reachable ledger state is well-formed. -/
theorem reachable_WF {st : Ledger} (hr : Reachable st) : WF st := by
  induction hr with
  | empty => exact wf_empty
  | append _ hok ih => exact appendLocation_WF ih hok
  | rollback h _ ih => exact rollback_WF ih h

/-! ### Concrete fixtures used by witnesses -/

/-- Sample genesis reveal event. -/
def evGenesisA : LocEvent :=
  { genesis_id := "a"
    block_height := 100
    block_hash := "h100"
    tx_id := "t0"
    tx_index := 0
    address := some "addr0"
    output := "o0"
    offset := some 0
    prev_output := none
    prev_offset := none
    value := some 10000
    prev_value := none
    timestamp := 1
    transfer_type := DbLocationTransferType.transferred
    block_transfer_index := 0
    genesis := true }

/-- Sample transfer event correctly chained onto `evGenesisA`. -/
def evTransferA : LocEvent :=
  { evGenesisA with
    block_height := 101
    block_hash := "h101"
    tx_id := "t1"
    tx_index := 3
    address := some "addr1"
    output := "o1"
    offset := some 0
    prev_output := some "o0"
    prev_offset := some 0
    prev_value := some 10000
    value := some 9000
    timestamp := 2
    genesis := false }

/-- Sample transfer event whose declared predecessor output is wrong. -/
def evBadTransferA : LocEvent :=
  { evTransferA with prev_output := some "WRONG" }

/-- Ledger holding just the genesis of inscription `a`. -/
def ledgerA : Ledger := ⟨[evGenesisA], [("a", evGenesisA)]⟩

theorem ledgerA_reachable : Reachable ledgerA :=
  @Reachable.append Ledger.empty ledgerA evGenesisA Reachable.empty rfl

/-! ## Claim theorems for the location ledger -/

/-- C1: for every reachable ledger state (i.e. after every append and every
rollback) and every inscription, the inscription's Location entries are
strictly ordered by `(block_height, tx_index, block_transfer_index)`, the
first entry in that order is the unique genesis entry, and the
Current-Location Pointer equals the entry with the maximum order key (the
last entry in that order). -/
theorem C1_location_ledger_invariant (st : Ledger) (hr : Reachable st) (gid : String) :
    (entriesOf st gid).Chain' keyLt ∧
      (∀ a t, entriesOf st gid = a :: t →
        a.genesis = true ∧ (entriesOf st gid).countP (fun e => e.genesis) = 1) ∧
      plookup gid st.pointers = (entriesOf st gid).getLast? := by
  obtain ⟨hchains, hptr, _⟩ := reachable_WF hr
  obtain ⟨hc1, _, hhd, htl⟩ := hchains gid
  refine ⟨hc1, ?_, hptr gid⟩
  intro a t hat
  rw [hat] at hhd htl ⊢
  have hga : a.genesis = true := hhd a (by simp)
  refine ⟨hga, ?_⟩
  rw [List.countP_cons]
  have hz : List.countP (fun e => e.genesis) t = 0 := by
    rw [List.countP_eq_zero]
    intro x hx
    simp only [List.tail_cons] at htl
    simp [htl x hx]
  rw [hz]
  simp [hga]

/-- Witness for C1 at a concrete reachable state. -/
theorem C1_location_ledger_invariant_witness :
    Reachable ledgerA ∧
      ((entriesOf ledgerA "a").Chain' keyLt ∧
        (∀ a t, entriesOf ledgerA "a" = a :: t →
          a.genesis = true ∧ (entriesOf ledgerA "a").countP (fun e => e.genesis) = 1) ∧
        plookup "a" ledgerA.pointers = (entriesOf ledgerA "a").getLast?) :=
  ⟨ledgerA_reachable, C1_location_ledger_invariant ledgerA ledgerA_reachable "a"⟩

/-- C3: when an inscription has a Current-Location Pointer and an event's
order key is equal to or smaller than the pointer's order key, the append
fails with `DuplicateOrStaleEvent` and the ledger state is returned
unchanged. -/
theorem C3_duplicate_or_stale_rejected (st : Ledger) (e p : LocEvent)
    (hp : plookup e.genesis_id st.pointers = some p)
    (hle : OrderKey.Le e.key p.key) :
    ingest st e = (st, some LedgerError.DuplicateOrStaleEvent) := by
  have hnlt : ¬ OrderKey.Lt p.key e.key := OrderKey.not_lt_of_le hle
  unfold ingest appendLocation
  rw [hp]
  dsimp only
  rw [if_neg hnlt]

/-- Witness for C3: re-delivering the genesis event (equal order key) is
rejected as stale and changes nothing. -/
theorem C3_duplicate_or_stale_rejected_witness :
    plookup evGenesisA.genesis_id ledgerA.pointers = some evGenesisA ∧
      OrderKey.Le evGenesisA.key evGenesisA.key ∧
      ingest ledgerA evGenesisA = (ledgerA, some LedgerError.DuplicateOrStaleEvent) :=
  ⟨by decide, Or.inr rfl,
    C3_duplicate_or_stale_rejected ledgerA evGenesisA evGenesisA (by decide) (Or.inr rfl)⟩

/-- C5: a non-genesis transfer event with a strictly larger order key whose
declared `prev_output`/`prev_offset`/`prev_value` do not match the current
location's `output`/`offset`/`value` is rejected with `ChainDiscontinuity`
and leaves the ledger (in particular the Current-Location Pointer)
unchanged. -/
theorem C5_chain_discontinuity_rejected (st : Ledger) (e p : LocEvent)
    (hp : plookup e.genesis_id st.pointers = some p)
    (hlt : OrderKey.Lt p.key e.key)
    (hng : e.genesis = false)
    (hmis : ¬ prevMatch p e) :
    ingest st e = (st, some LedgerError.ChainDiscontinuity) ∧
      (ingest st e).1.pointers = st.pointers := by
  have hcond : ¬ (e.genesis = false ∧ prevMatch p e) := fun hc => hmis hc.2
  have hmain : ingest st e = (st, some LedgerError.ChainDiscontinuity) := by
    unfold ingest appendLocation
    rw [hp]
    dsimp only
    rw [if_pos hlt, if_neg hcond]
  exact ⟨hmain, by rw [hmain]⟩

/-- Witness for C5: a transfer declaring the wrong `prev_output` is
rejected with `ChainDiscontinuity` and the pointer is unchanged. -/
theorem C5_chain_discontinuity_rejected_witness :
    plookup evBadTransferA.genesis_id ledgerA.pointers = some evGenesisA ∧
      OrderKey.Lt evGenesisA.key evBadTransferA.key ∧
      evBadTransferA.genesis = false ∧
      ¬ prevMatch evGenesisA evBadTransferA ∧
      (ingest ledgerA evBadTransferA = (ledgerA, some LedgerError.ChainDiscontinuity) ∧
        (ingest ledgerA evBadTransferA).1.pointers = ledgerA.pointers) :=
  ⟨by decide, by decide, by decide, by decide,
    C5_chain_discontinuity_rejected ledgerA evBadTransferA evGenesisA
      (by decide) (by decide) (by decide) (by decide)⟩

/-! ## Rollback/replay round trip -/

instance : IsTrans LocEvent heightLe :=
  ⟨fun a b c h1 h2 => Nat.le_trans h1 h2⟩

instance (a b : LocEvent) : Decidable (heightLe a b) := by
  unfold heightLe; infer_instance

/-- Ingestion order assumption: events were appended in block order, so the
global insertion order has non-decreasing block heights (spec §6: the
ingestion collaborator supplies events in block order). -/
def HeightMono (st : Ledger) : Prop := st.locations.Chain' heightLe

/-- Number of inscriptions revealed at block height `hh` (genesis entries
recorded at that height). -/
def perBlockCount (st : Ledger) (hh : Nat) : Nat :=
  st.locations.countP fun e => e.genesis && decide (e.block_height = hh)

/-- Cumulative number of inscriptions revealed at heights `≤ hh`. -/
def cumulativeCount (st : Ledger) (hh : Nat) : Nat :=
  st.locations.countP fun e => e.genesis && decide (e.block_height ≤ hh)

/-- List-level chain goodness: every per-inscription chain of the row list
is well-formed. -/
def GoodLocs (L : List LocEvent) : Prop :=
  ∀ gid, GoodChain (L.filter fun e => e.genesis_id = gid)

theorem replay_extend :
    ∀ (B A : List LocEvent) (stA : Ledger),
      GoodLocs (A ++ B) →
      stA.locations = A →
      (∀ gid, plookup gid stA.pointers = (A.filter fun e => e.genesis_id = gid).getLast?) →
      (stA.pointers.map Prod.fst).Nodup →
      ∃ st', replay stA B = .ok st' ∧
        st'.locations = A ++ B ∧
        (∀ gid, plookup gid st'.pointers =
          ((A ++ B).filter fun e => e.genesis_id = gid).getLast?) ∧
        (st'.pointers.map Prod.fst).Nodup := by
  intro B
  induction B with
  | nil =>
      intro A stA hG hloc hptr hnd
      refine ⟨stA, rfl, by rw [hloc, List.append_nil], ?_, hnd⟩
      intro gid
      rw [List.append_nil]
      exact hptr gid
  | cons e B' ih =>
      intro A stA hG hloc hptr hnd
      have hfull := hG e.genesis_id
      have hsplit : ((A ++ e :: B').filter fun x => x.genesis_id = e.genesis_id) =
          (A.filter fun x => x.genesis_id = e.genesis_id) ++
            e :: (B'.filter fun x => x.genesis_id = e.genesis_id) := by
        simp [List.filter_append, List.filter_cons]
      rw [hsplit] at hfull
      have hG' : GoodLocs ((A ++ [e]) ++ B') := by
        rw [← List.append_cons]
        exact hG
      cases hAg : (A.filter fun x => x.genesis_id = e.genesis_id) with
      | nil =>
          have hgen : e.genesis = true := by
            rw [hAg] at hfull
            exact hfull.2.2.1 e (by simp)
          have hlk : plookup e.genesis_id stA.pointers = none := by
            rw [hptr, hAg]
            rfl
          have happ : appendLocation stA e =
              .ok ⟨stA.locations ++ [e], stA.pointers ++ [(e.genesis_id, e)]⟩ := by
            unfold appendLocation
            rw [hlk]
            dsimp only
            rw [if_pos hgen]
          obtain ⟨st', hrep, hloc', hptr', hnd'⟩ :=
            ih (A ++ [e]) ⟨stA.locations ++ [e], stA.pointers ++ [(e.genesis_id, e)]⟩ hG'
              (by rw [hloc])
              (by
                intro gid
                show plookup gid (stA.pointers ++ [(e.genesis_id, e)]) = _
                rw [plookup_append]
                by_cases hgid : gid = e.genesis_id
                · subst hgid
                  rw [hlk]
                  simp only [List.filter_append, hAg, List.nil_append]
                  simp [plookup]
                · have hne : ¬ (e.genesis_id = gid) := fun h' => hgid h'.symm
                  rw [List.filter_append]
                  have hesing : ([e].filter fun x => x.genesis_id = gid) = [] := by
                    simp [hne]
                  rw [hesing, List.append_nil]
                  cases hpg : plookup gid stA.pointers with
                  | none =>
                      simp only [plookup, if_neg hne]
                      rw [← hptr gid, hpg]
                  | some p => rw [← hptr gid, hpg])
              (by
                show ((stA.pointers ++ [(e.genesis_id, e)]).map Prod.fst).Nodup
                rw [List.map_append, List.nodup_append]
                refine ⟨hnd, by simp, ?_⟩
                intro x hx
                simp only [List.map_cons, List.map_nil, List.mem_singleton]
                intro hx'
                subst hx'
                exact absurd hx (plookup_eq_none.mp hlk))
          refine ⟨st', ?_, ?_, ?_, hnd'⟩
          · show replay stA (e :: B') = .ok st'
            simp only [replay]
            rw [happ]
            exact hrep
          · rw [hloc']
            simp
          · intro gid
            simpa using hptr' gid
      | cons a0 t0 =>
          have hne : (A.filter fun x => x.genesis_id = e.genesis_id) ≠ [] := by
            rw [hAg]
            simp
          obtain ⟨p, hlastp⟩ : ∃ p, (A.filter fun x => x.genesis_id = e.genesis_id).getLast? = some p := by
            cases hgl : (A.filter fun x => x.genesis_id = e.genesis_id).getLast? with
            | none => exact absurd (List.getLast?_eq_none_iff.mp hgl) hne
            | some p => exact ⟨p, rfl⟩
          have hlk : plookup e.genesis_id stA.pointers = some p := by
            rw [hptr]
            exact hlastp
          obtain ⟨hc1, hc2, hhd, htl⟩ := hfull
          have hlink : keyLt p e := by
            rw [List.chain'_append] at hc1
            exact hc1.2.2 p hlastp e rfl
          have hpm : prevMatch p e := by
            rw [List.chain'_append] at hc2
            exact hc2.2.2 p hlastp e rfl
          have hgen : e.genesis = false := by
            apply htl
            rw [hAg]
            simp
          have happ : appendLocation stA e =
              .ok ⟨stA.locations ++ [e], updatePointer stA.pointers e.genesis_id e⟩ := by
            unfold appendLocation
            rw [hlk]
            dsimp only
            have hlink' : OrderKey.Lt p.key e.key := hlink
            rw [if_pos hlink', if_pos ⟨hgen, hpm⟩]
          obtain ⟨st', hrep, hloc', hptr', hnd'⟩ :=
            ih (A ++ [e]) ⟨stA.locations ++ [e], updatePointer stA.pointers e.genesis_id e⟩ hG'
              (by rw [hloc])
              (by
                intro gid
                by_cases hgid : gid = e.genesis_id
                · subst hgid
                  show plookup _ (updatePointer stA.pointers _ e) = _
                  rw [plookup_updatePointer_self hlk e]
                  rw [List.filter_append]
                  have hesing : ([e].filter fun x => x.genesis_id = e.genesis_id) = [e] := by
                    simp
                  rw [hesing, List.getLast?_concat]
                · have hne' : ¬ (e.genesis_id = gid) := fun h' => hgid h'.symm
                  show plookup gid (updatePointer stA.pointers _ e) = _
                  rw [plookup_updatePointer_ne hgid e]
                  rw [List.filter_append]
                  have hesing : ([e].filter fun x => x.genesis_id = gid) = [] := by
                    simp [hne']
                  rw [hesing, List.append_nil]
                  exact hptr gid)
              (by
                show ((updatePointer stA.pointers _ e).map Prod.fst).Nodup
                rw [updatePointer_keys]
                exact hnd)
          refine ⟨st', ?_, ?_, ?_, hnd'⟩
          · show replay stA (e :: B') = .ok st'
            simp only [replay]
            rw [happ]
            exact hrep
          · rw [hloc']
            simp
          · intro gid
            simpa using hptr' gid

/-- C4: rolling back from height `h` and re-appending the deleted event
sequence (all entries with `block_height ≥ h`, in their original order)
reproduces the Location rows, the Current-Location Pointers, and the
per-block and cumulative inscription counts of the original state.  The
original state is any reachable state whose events were ingested in block
order (`HeightMono`, spec §6). -/
theorem C4_rollback_replay_round_trip (st : Ledger) (h : Nat)
    (hr : Reachable st) (hm : HeightMono st) :
    ∃ st', replay (rollbackFromHeight st h)
        (st.locations.filter fun e => h ≤ e.block_height) = .ok st' ∧
      st'.locations = st.locations ∧
      (∀ gid, plookup gid st'.pointers = plookup gid st.pointers) ∧
      (∀ hh, perBlockCount st' hh = perBlockCount st hh ∧
        cumulativeCount st' hh = cumulativeCount st hh) := by
  obtain ⟨hchains, hptr, _⟩ := reachable_WF hr
  obtain ⟨_, hptrR, hndR⟩ := rollback_WF (reachable_WF hr) h
  have hp : ∀ a b : LocEvent, heightLe a b →
      decide (b.block_height < h) = true → decide (a.block_height < h) = true := by
    intro a b hab hb
    simp only [heightLe] at hab
    simp only [decide_eq_true_eq] at hb ⊢
    omega
  have hpw : st.locations.Pairwise heightLe := List.chain'_iff_pairwise.mp hm
  have hA : st.locations.filter (fun e => e.block_height < h) =
      st.locations.takeWhile (fun e => e.block_height < h) :=
    filter_eq_takeWhile_of_pairwise _ hp _ hpw
  have hBcongr : st.locations.filter (fun e => h ≤ e.block_height) =
      st.locations.filter (fun e => ! decide (e.block_height < h)) := by
    apply List.filter_congr
    intro x _
    rw [← decide_not]
    exact decide_eq_decide.mpr (by omega)
  have hB : st.locations.filter (fun e => h ≤ e.block_height) =
      st.locations.dropWhile (fun e => e.block_height < h) := by
    rw [hBcongr]
    exact filter_not_eq_dropWhile_of_pairwise _ hp _ hpw
  have hAB : st.locations.filter (fun e => e.block_height < h) ++
      st.locations.filter (fun e => h ≤ e.block_height) = st.locations := by
    rw [hA, hB]
    exact List.takeWhile_append_dropWhile _ _
  obtain ⟨st', hrep, hloc', hptr', _⟩ :=
    replay_extend (st.locations.filter fun e => h ≤ e.block_height)
      (st.locations.filter fun e => e.block_height < h)
      (rollbackFromHeight st h)
      (by
        show GoodLocs _
        rw [hAB]
        intro gid
        exact hchains gid)
      rfl
      (fun gid => hptrR gid)
      hndR
  refine ⟨st', hrep, ?_, ?_, ?_⟩
  · rw [hloc', hAB]
  · intro gid
    rw [hptr' gid, hAB]
    exact (hptr gid).symm
  · intro hh
    refine ⟨?_, ?_⟩ <;>
      · simp only [perBlockCount, cumulativeCount]
        rw [hloc', hAB]

/-- Ledger holding the genesis and one transfer of inscription `a`. -/
def ledgerAB : Ledger := ⟨[evGenesisA, evTransferA], [("a", evTransferA)]⟩

theorem ledgerAB_reachable : Reachable ledgerAB :=
  @Reachable.append ledgerA ledgerAB evTransferA ledgerA_reachable rfl

theorem ledgerAB_heightMono : HeightMono ledgerAB :=
  List.chain'_pair.mpr (by decide)

/-- Witness for C4: rolling the transfer back from height 101 and
re-appending it restores the two-entry ledger. -/
theorem C4_rollback_replay_round_trip_witness :
    Reachable ledgerAB ∧ HeightMono ledgerAB ∧
      (∃ st', replay (rollbackFromHeight ledgerAB 101)
          (ledgerAB.locations.filter fun e => 101 ≤ e.block_height) = .ok st' ∧
        st'.locations = ledgerAB.locations ∧
        (∀ gid, plookup gid st'.pointers = plookup gid ledgerAB.pointers) ∧
        (∀ hh, perBlockCount st' hh = perBlockCount ledgerAB hh ∧
          cumulativeCount st' hh = cumulativeCount ledgerAB hh)) :=
  ⟨ledgerAB_reachable, ledgerAB_heightMono,
    C4_rollback_replay_round_trip ledgerAB 101 ledgerAB_reachable ledgerAB_heightMono⟩

/-! ## Block statistics aggregator

The aggregator behind `getInscriptionCountPerBlock` lives in the
repository's pg store, which is not under `src/`; it is modelled from spec
§4.2 over the result shape `DbInscriptionCountPerBlock` and filter shape
`DbInscriptionCountPerBlockFilters` of `src/pg/types.ts`. -/

/-- Statistics recorded for one indexed block. -/
structure BlockStat where
  block_hash : String
  timestamp : Nat
  inscription_count : Nat
deriving DecidableEq, Repr

/-- Indexed chain of block statistics: the block at list index `i` has
height `genesis_height + i`. -/
structure ChainStats where
  genesis_height : Nat
  blocks : List BlockStat
deriving DecidableEq, Repr

/-- Height of the current indexed tip. -/
def ChainStats.tip (c : ChainStats) : Nat := c.genesis_height + c.blocks.length - 1

/-- Per-block inscription count at height `H` (0 outside the indexed range). -/
def perBlock (c : ChainStats) (H : Nat) : Nat :=
  if H < c.genesis_height then 0
  else ((c.blocks[H - c.genesis_height]?).map fun b => b.inscription_count).getD 0

/-- Cumulative count at height `H`: total number of inscriptions revealed
at heights from the chain genesis through `H`. -/
def cumulative (c : ChainStats) (H : Nat) : Nat :=
  ((c.blocks.take (H + 1 - c.genesis_height)).map fun b => b.inscription_count).sum

/-- Result row shape `DbInscriptionCountPerBlock` from `src/pg/types.ts`
(numeric wire strings modelled as `Nat`). -/
structure DbInscriptionCountPerBlock where
  block_height : Nat
  block_hash : String
  inscription_count : Nat
  inscription_count_accum : Nat
  timestamp : Nat
deriving DecidableEq, Repr

/-- Row reported for height `H`. -/
def mkCountRow (c : ChainStats) (H : Nat) : DbInscriptionCountPerBlock :=
  { block_height := H
    block_hash := ((c.blocks[H - c.genesis_height]?).map fun b => b.block_hash).getD ""
    inscription_count := perBlock c H
    inscription_count_accum := cumulative c H
    timestamp := ((c.blocks[H - c.genesis_height]?).map fun b => b.timestamp).getD 0 }

/-- Modelled from the spec: `getInscriptionCountPerBlock(fromHeight?,
toHeight?)` (spec §4.2) — the implementation in the repository's pg store
is not under `src/`.  Returns one row per indexed block height inside the
inclusive range (unbounded below / above at the current tip when a bound
is omitted), in ascending height order. -/
def getInscriptionCountPerBlock (c : ChainStats) (fromH toH : Option Nat) :
    List DbInscriptionCountPerBlock :=
  (List.range c.blocks.length).filterMap fun i =>
    if fromH.getD c.genesis_height ≤ c.genesis_height + i ∧
        c.genesis_height + i ≤ toH.getD c.tip then
      some (mkCountRow c (c.genesis_height + i))
    else none

theorem filterMap_ite {α β : Type} (P : α → Prop) [DecidablePred P] (f : α → β) :
    ∀ l : List α, (l.filterMap fun a => if P a then some (f a) else none) =
      (l.filter fun a => decide (P a)).map f := by
  intro l
  induction l with
  | nil => simp
  | cons a t ih =>
      by_cases hP : P a <;> simp [hP, ih]

theorem sum_take_mono (l : List Nat) {m m' : Nat} (h : m ≤ m') :
    (l.take m).sum ≤ (l.take m').sum := by
  have h1 : m + (m' - m) = m' := by omega
  calc (l.take m).sum ≤ (l.take m).sum + ((l.drop m).take (m' - m)).sum :=
        Nat.le_add_right _ _
    _ = (l.take m').sum := by rw [← List.sum_append, ← List.take_add, h1]

theorem cumulative_mono (c : ChainStats) {H H' : Nat} (h : H ≤ H') :
    cumulative c H ≤ cumulative c H' := by
  unfold cumulative
  rw [List.map_take, List.map_take]
  exact sum_take_mono _ (by omega)

/-- Characterization of the aggregator output: the rows for exactly the
in-range indexed heights, in ascending order. -/
theorem getInscriptionCountPerBlock_eq (c : ChainStats) (fromH toH : Option Nat) :
    getInscriptionCountPerBlock c fromH toH =
      ((List.range' c.genesis_height c.blocks.length).filter fun H =>
        fromH.getD c.genesis_height ≤ H ∧ H ≤ toH.getD c.tip).map (mkCountRow c) := by
  unfold getInscriptionCountPerBlock
  rw [filterMap_ite
    (fun i => fromH.getD c.genesis_height ≤ c.genesis_height + i ∧
      c.genesis_height + i ≤ toH.getD c.tip)
    (fun i => mkCountRow c (c.genesis_height + i))]
  rw [List.range'_eq_map_range, List.filter_map, List.map_map]
  rfl

theorem cumulative_succ (c : ChainStats) (H : Nat) (hH : c.genesis_height < H) :
    cumulative c H = cumulative c (H - 1) + perBlock c H := by
  unfold cumulative perBlock
  have h1 : H + 1 - c.genesis_height = (H - c.genesis_height) + 1 := by omega
  have h2 : H - 1 + 1 - c.genesis_height = H - c.genesis_height := by omega
  rw [h1, h2, List.take_succ, List.map_append, List.sum_append]
  rw [if_neg (by omega : ¬ H < c.genesis_height)]
  congr 1
  cases hmq : c.blocks[H - c.genesis_height]? <;> simp [hmq]

theorem cumulative_genesis (c : ChainStats) :
    cumulative c c.genesis_height = perBlock c c.genesis_height := by
  unfold cumulative perBlock
  have h1 : c.genesis_height + 1 - c.genesis_height = 0 + 1 := by omega
  have h2 : c.genesis_height - c.genesis_height = 0 := by omega
  rw [h1, h2, List.take_succ, if_neg (by omega : ¬ c.genesis_height < c.genesis_height)]
  cases hmq : c.blocks[0]? <;> simp [hmq]

theorem cumulative_eq_sum_perBlock (c : ChainStats) (H : Nat) :
    cumulative c H =
      ((List.range' c.genesis_height (H + 1 - c.genesis_height)).map (perBlock c)).sum := by
  by_cases hH : H < c.genesis_height
  · have h0 : H + 1 - c.genesis_height = 0 := by omega
    rw [h0]
    simp [cumulative, h0]
  · have hg : c.genesis_height ≤ H := by omega
    obtain ⟨m, rfl⟩ : ∃ m, H = c.genesis_height + m := ⟨H - c.genesis_height, by omega⟩
    have hm : c.genesis_height + m + 1 - c.genesis_height = m + 1 := by omega
    rw [hm]
    clear hH hg hm
    induction m with
    | zero =>
        simp only [Nat.add_zero]
        rw [cumulative_genesis]
        simp
    | succ k ih =>
        have hk : c.genesis_height < c.genesis_height + (k + 1) := by omega
        have hstep := cumulative_succ c (c.genesis_height + (k + 1)) hk
        have hprev : c.genesis_height + (k + 1) - 1 = c.genesis_height + k := by omega
        rw [hprev] at hstep
        rw [hstep, ih]
        have hconc : List.range' c.genesis_height (k + 1 + 1) =
            List.range' c.genesis_height (k + 1) ++ [c.genesis_height + (k + 1)] := by
          simpa using @List.range'_concat 1 c.genesis_height (k + 1)
        rw [hconc, List.map_append, List.sum_append]
        simp

/-- C7: `getInscriptionCountPerBlock` returns one row per indexed block
height in the inclusive range (unbounded below when `fromH` is omitted,
bounded by the current tip when `toH` is omitted), each row carrying the
block hash, timestamp, per-block count and cumulative count
(`r = mkCountRow c r.block_height`), in ascending height order; a range
entirely above the indexed tip yields an empty result rather than an
error. -/
theorem C7_count_per_block_contract (c : ChainStats) (fromH toH : Option Nat) :
    getInscriptionCountPerBlock c fromH toH =
      ((List.range' c.genesis_height c.blocks.length).filter fun H =>
        fromH.getD c.genesis_height ≤ H ∧ H ≤ toH.getD c.tip).map (mkCountRow c) ∧
    ((getInscriptionCountPerBlock c fromH toH).map fun r => r.block_height).Pairwise (· < ·) ∧
    (∀ r ∈ getInscriptionCountPerBlock c fromH toH, r = mkCountRow c r.block_height) ∧
    (∀ f, fromH = some f → c.tip < f → getInscriptionCountPerBlock c fromH toH = []) := by
  refine ⟨getInscriptionCountPerBlock_eq c fromH toH, ?_, ?_, ?_⟩
  · rw [getInscriptionCountPerBlock_eq, List.map_map]
    have hfun : ((fun r : DbInscriptionCountPerBlock => r.block_height) ∘ mkCountRow c) = id := by
      funext H
      rfl
    rw [hfun, List.map_id]
    exact (List.pairwise_lt_range' _ _).filter _
  · intro r hr
    rw [getInscriptionCountPerBlock_eq] at hr
    obtain ⟨H, _, rfl⟩ := List.mem_map.mp hr
    rfl
  · intro f hf htip
    rw [getInscriptionCountPerBlock_eq, hf]
    have hnil : ((List.range' c.genesis_height c.blocks.length).filter fun H =>
        (some f).getD c.genesis_height ≤ H ∧ H ≤ toH.getD c.tip) = [] := by
      rw [List.filter_eq_nil_iff]
      intro H hH
      obtain ⟨i, hi, rfl⟩ := List.mem_range'.mp hH
      simp only [ChainStats.tip] at htip
      simp only [decide_eq_true_eq, Option.getD_some, not_and]
      intro hfle
      exfalso
      omega
    rw [hnil]
    simp

/-- C2: the cumulative count satisfies the recurrence
`cumulative(H) = cumulative(H-1) + perBlock(H)` above the genesis height
with `cumulative(genesis) = perBlock(genesis)`; for every requested
window, the returned cumulative values are monotonically non-decreasing
and each equals the sum of per-block counts over all heights from the
chain genesis through the row's height. -/
theorem C2_cumulative_invariant (c : ChainStats) :
    (∀ H, c.genesis_height < H → cumulative c H = cumulative c (H - 1) + perBlock c H) ∧
    cumulative c c.genesis_height = perBlock c c.genesis_height ∧
    (∀ fromH toH,
      ((getInscriptionCountPerBlock c fromH toH).map fun r =>
        r.inscription_count_accum).Pairwise (· ≤ ·) ∧
      ∀ r ∈ getInscriptionCountPerBlock c fromH toH,
        r.inscription_count_accum =
          ((List.range' c.genesis_height (r.block_height + 1 - c.genesis_height)).map
            (perBlock c)).sum) := by
  refine ⟨cumulative_succ c, cumulative_genesis c, ?_⟩
  intro fromH toH
  constructor
  · rw [getInscriptionCountPerBlock_eq, List.map_map, List.pairwise_map]
    have hpl : (((List.range' c.genesis_height c.blocks.length).filter fun H =>
        fromH.getD c.genesis_height ≤ H ∧ H ≤ toH.getD c.tip)).Pairwise (· < ·) :=
      (List.pairwise_lt_range' _ _).filter _
    exact hpl.imp fun hab => cumulative_mono c (Nat.le_of_lt hab)
  · intro r hr
    rw [getInscriptionCountPerBlock_eq] at hr
    obtain ⟨H, _, rfl⟩ := List.mem_map.mp hr
    exact cumulative_eq_sum_perBlock c H

/-- Example chain from the spec: blocks 100–103 with per-block counts
`[2, 0, 3, 1]`. -/
def chainEx : ChainStats :=
  ⟨100, [⟨"b100", 10, 2⟩, ⟨"b101", 11, 0⟩, ⟨"b102", 12, 3⟩, ⟨"b103", 13, 1⟩]⟩

/-- Spec §8 example: the cumulative values for the window 100–103 are
`[2, 2, 5, 6]`. -/
theorem chainEx_accum_values :
    (getInscriptionCountPerBlock chainEx (some 100) (some 103)).map
      (fun r => r.inscription_count_accum) = [2, 2, 5, 6] := by
  decide

/-- Witness for C2 at the example chain and height 102. -/
theorem C2_cumulative_invariant_witness :
    chainEx.genesis_height < 102 ∧
      cumulative chainEx 102 = cumulative chainEx 101 + perBlock chainEx 102 :=
  ⟨by decide, (C2_cumulative_invariant chainEx).1 102 (by decide)⟩

/-- Witness for C7: a window entirely above the indexed tip yields an
empty result. -/
theorem C7_count_per_block_contract_witness :
    chainEx.tip < 200 ∧ getInscriptionCountPerBlock chainEx (some 200) none = [] :=
  ⟨by decide,
    (C7_count_per_block_contract chainEx (some 200) none).2.2.2 200 rfl (by decide)⟩

/-! ## BRC-20 mint flow and the mints route

`getMintFlow` lives in the repository's brc20 pg store, which is not under
`src/`; it is modelled from spec §4.3.  The route handler around it is
translated from `src/api/routes/stats.ts`. -/

/-- A BRC-20 mint event row: block height plus the deterministic
intra-block tie-break index, and a token ticker payload. -/
structure Brc20MintEvent where
  block_height : Nat
  tx_index : Nat
  ticker : String
deriving DecidableEq, Repr

/-- Indexed BRC-20 data; `tip = none` when no data is indexed, in which
case a windowed query cannot resolve its floor height. -/
structure MintDb where
  genesis_height : Nat
  tip : Option Nat
  events : List Brc20MintEvent
deriving DecidableEq, Repr

/-- Unit discriminator of the relative-offset token. -/
inductive OffsetUnit where
  | blocks
  | days
deriving DecidableEq, Repr

/-- Parsed relative-offset token: a positive magnitude plus a unit. -/
structure BlockOffsetTok where
  magnitude : Nat
  unit : OffsetUnit
deriving DecidableEq, Repr

/-- Modelled from the spec: the blocks-per-day conversion factor for the
day unit; spec §9 leaves the exact value as an externally configured
protocol constant, so only its role matters here. -/
def BLOCKS_PER_DAY : Nat := 144

/-- Block span resolved from a relative-offset token. -/
def resolveSpan (t : BlockOffsetTok) : Nat :=
  match t.unit with
  | .blocks => t.magnitude
  | .days => t.magnitude * BLOCKS_PER_DAY

/-- Mint-flow ordering: ascending block height, then the deterministic
intra-block tie-break index. -/
def mintLe (a b : Brc20MintEvent) : Prop :=
  a.block_height < b.block_height ∨
    (a.block_height = b.block_height ∧ a.tx_index ≤ b.tx_index)

instance (a b : Brc20MintEvent) : Decidable (mintLe a b) := by
  unfold mintLe; infer_instance

instance : IsTotal Brc20MintEvent mintLe :=
  ⟨by intro a b; unfold mintLe; omega⟩

instance : IsTrans Brc20MintEvent mintLe :=
  ⟨by intro a b c h1 h2; unfold mintLe at *; omega⟩

/-- All indexed mint events at heights inside the window anchored at
`tip`, in the mint-flow ordering.  The floor height is
`tip − span`, floored at the chain's genesis height. -/
def mintWindow (db : MintDb) (tip : Nat) (tok : BlockOffsetTok) : List Brc20MintEvent :=
  (List.insertionSort mintLe db.events).filter
    fun e => max db.genesis_height (tip - resolveSpan tok) ≤ e.block_height

/-- Paginated result shape `DbPaginatedResult` from `src/pg/types.ts`. -/
structure DbPaginatedResult (α : Type) where
  total : Nat
  results : List α
deriving DecidableEq, Repr

/-- Modelled from the spec: `getMintFlow(blockOffset, limit, offset)`
(spec §4.3) — the implementation in the repository's brc20 pg store is
not under `src/`.  Returns `none` when the floor height cannot be
resolved against indexed data (no indexed tip); otherwise the full
matching count and the requested page of the windowed, stably ordered
mint events. -/
def getMintFlow (db : MintDb) (tok : BlockOffsetTok) (limit off : Nat) :
    Option (DbPaginatedResult Brc20MintEvent) :=
  match db.tip with
  | none => none
  | some tip =>
      some ⟨(mintWindow db tip tok).length, ((mintWindow db tip tok).drop off).take limit⟩

/-- Modelled from the spec: the default page limit `DEFAULT_API_LIMIT`
from `api/util/helpers`, which is not under `src/`; its numeric value is
not pinned by the spec, only its role as the substituted default. -/
def DEFAULT_API_LIMIT : Nat := 20

/-- Response alternatives of the mints route. -/
inductive ApiResponse (α : Type) where
  | ok (body : α)
  | notFound
deriving DecidableEq, Repr

/-- Body of a successful paginated mints response, as sent by
`src/api/routes/stats.ts`: the effective limit and offset, the full
matching total, and the page rows. -/
structure PaginatedMintResponse where
  limit : Nat
  offset : Nat
  total : Nat
  results : List Brc20MintEvent
deriving DecidableEq, Repr

/-- Route handler for `GET /stats/brc-20/mints`, translated from
`src/api/routes/stats.ts` (lines 103–121): substitutes
`DEFAULT_API_LIMIT` for an omitted `limit` and `0` for an omitted
`offset`, maps a null core result to a 404 response, and otherwise echoes
the effective limit and offset beside the total and rows
(`parseBrc20MintFlow`, a row serialization from api/util/helpers not
under `src/`, is modelled as the identity). -/
def mintsRoute (db : MintDb) (tok : BlockOffsetTok) (qlimit qoff : Option Nat) :
    ApiResponse PaginatedMintResponse :=
  match getMintFlow db tok (qlimit.getD DEFAULT_API_LIMIT) (qoff.getD 0) with
  | none => .notFound
  | some r => .ok ⟨qlimit.getD DEFAULT_API_LIMIT, qoff.getD 0, r.total, r.results⟩

/-- C6: the mints route responds 404 exactly when `getMintFlow` returns
null (unresolvable floor height, i.e. no indexed tip); an empty-but-valid
window instead produces a zero-total paginated success response, never a
404. -/
theorem C6_mint_flow_not_found_mapping (db : MintDb) (tok : BlockOffsetTok)
    (qlimit qoff : Option Nat) :
    (mintsRoute db tok qlimit qoff = .notFound ↔
      getMintFlow db tok (qlimit.getD DEFAULT_API_LIMIT) (qoff.getD 0) = none) ∧
    (getMintFlow db tok (qlimit.getD DEFAULT_API_LIMIT) (qoff.getD 0) = none ↔
      db.tip = none) ∧
    (∀ tip, db.tip = some tip → mintWindow db tip tok = [] →
      mintsRoute db tok qlimit qoff =
        .ok ⟨qlimit.getD DEFAULT_API_LIMIT, qoff.getD 0, 0, []⟩) := by
  refine ⟨?_, ?_, ?_⟩
  · unfold mintsRoute
    cases hg : getMintFlow db tok (qlimit.getD DEFAULT_API_LIMIT) (qoff.getD 0) with
    | none => simp
    | some r => simp
  · unfold getMintFlow
    cases db.tip <;> simp
  · intro tip htip hwin
    unfold mintsRoute getMintFlow
    rw [htip]
    dsimp only
    rw [hwin]
    simp

/-- C8: against an unchanged tip, mint-flow pagination is a pure function
of the query and the pages at offsets `0` and `L` are the first two
consecutive slices of the single mint-flow ordering (ascending block
height, then the intra-block tie-break), with no gaps or duplicates:
their concatenation is exactly the first `L + L` elements of that
ordering. -/
theorem C8_mint_flow_pagination_stable (db : MintDb) (tok : BlockOffsetTok)
    (L tip : Nat) (htip : db.tip = some tip) :
    getMintFlow db tok L 0 =
      some ⟨(mintWindow db tip tok).length, (mintWindow db tip tok).take L⟩ ∧
    getMintFlow db tok L L =
      some ⟨(mintWindow db tip tok).length, ((mintWindow db tip tok).drop L).take L⟩ ∧
    (mintWindow db tip tok).take L ++ ((mintWindow db tip tok).drop L).take L =
      (mintWindow db tip tok).take (L + L) ∧
    (mintWindow db tip tok).Pairwise mintLe := by
  refine ⟨?_, ?_, ?_, ?_⟩
  · unfold getMintFlow
    rw [htip]
    dsimp only
    rw [List.drop_zero]
  · unfold getMintFlow
    rw [htip]
  · exact (List.take_add _ L L).symm
  · unfold mintWindow
    exact (List.sorted_insertionSort mintLe db.events).filter _

/-- C10: for every request, the mints route substitutes
`DEFAULT_API_LIMIT` and `0` for omitted pagination parameters, and every
successful response echoes the effective (defaulted) limit and offset
next to the core result's total and rows. -/
theorem C10_mint_route_default_pagination (db : MintDb) (tok : BlockOffsetTok) :
    (∀ qlimit qoff body, mintsRoute db tok qlimit qoff = .ok body →
      body.limit = qlimit.getD DEFAULT_API_LIMIT ∧ body.offset = qoff.getD 0 ∧
      ∃ r, getMintFlow db tok (qlimit.getD DEFAULT_API_LIMIT) (qoff.getD 0) = some r ∧
        body.total = r.total ∧ body.results = r.results) ∧
    (∀ body, mintsRoute db tok none none = .ok body →
      body.limit = DEFAULT_API_LIMIT ∧ body.offset = 0) := by
  have hgen : ∀ qlimit qoff body, mintsRoute db tok qlimit qoff = .ok body →
      body.limit = qlimit.getD DEFAULT_API_LIMIT ∧ body.offset = qoff.getD 0 ∧
      ∃ r, getMintFlow db tok (qlimit.getD DEFAULT_API_LIMIT) (qoff.getD 0) = some r ∧
        body.total = r.total ∧ body.results = r.results := by
    intro qlimit qoff body h
    unfold mintsRoute at h
    cases hg : getMintFlow db tok (qlimit.getD DEFAULT_API_LIMIT) (qoff.getD 0) with
    | none =>
        rw [hg] at h
        cases h
    | some r =>
        rw [hg] at h
        dsimp only at h
        injection h with h'
        subst h'
        exact ⟨rfl, rfl, r, rfl, rfl, rfl⟩
  refine ⟨hgen, ?_⟩
  intro body h
  obtain ⟨h1, h2, _⟩ := hgen none none body h
  exact ⟨h1, h2⟩

/-! ### Mint-flow fixtures and witnesses -/

/-- Sample relative-offset token: `1000b`. -/
def tokEx : BlockOffsetTok := ⟨1000, OffsetUnit.blocks⟩

/-- Indexed BRC-20 data with four mint events around the tip. -/
def mintDbEx : MintDb :=
  ⟨100, some 103, [⟨103, 2, "x"⟩, ⟨101, 0, "y"⟩, ⟨103, 0, "z"⟩, ⟨102, 5, "w"⟩]⟩

/-- BRC-20 store with no indexed data at all. -/
def mintDbEmpty : MintDb := ⟨0, none, []⟩

/-- BRC-20 store with an indexed tip but no mint events. -/
def mintDbNoEvents : MintDb := ⟨100, some 100, []⟩

/-- Witness for C6: the empty store maps to 404, while an indexed store
whose window holds no events yields a zero-total success. -/
theorem C6_mint_flow_not_found_mapping_witness :
    mintsRoute mintDbEmpty tokEx none none = .notFound ∧
      mintDbNoEvents.tip = some 100 ∧
      mintWindow mintDbNoEvents 100 tokEx = [] ∧
      mintsRoute mintDbNoEvents tokEx none none = .ok ⟨DEFAULT_API_LIMIT, 0, 0, []⟩ :=
  ⟨(C6_mint_flow_not_found_mapping mintDbEmpty tokEx none none).1.mpr rfl,
    rfl, rfl,
    (C6_mint_flow_not_found_mapping mintDbNoEvents tokEx none none).2.2 100 rfl rfl⟩

/-- Witness for C8 at a concrete store, window and page size 2. -/
theorem C8_mint_flow_pagination_stable_witness :
    mintDbEx.tip = some 103 ∧
      (getMintFlow mintDbEx tokEx 2 0 =
        some ⟨(mintWindow mintDbEx 103 tokEx).length, (mintWindow mintDbEx 103 tokEx).take 2⟩ ∧
      getMintFlow mintDbEx tokEx 2 2 =
        some ⟨(mintWindow mintDbEx 103 tokEx).length,
          ((mintWindow mintDbEx 103 tokEx).drop 2).take 2⟩ ∧
      (mintWindow mintDbEx 103 tokEx).take 2 ++ ((mintWindow mintDbEx 103 tokEx).drop 2).take 2 =
        (mintWindow mintDbEx 103 tokEx).take (2 + 2) ∧
      (mintWindow mintDbEx 103 tokEx).Pairwise mintLe) :=
  ⟨rfl, C8_mint_flow_pagination_stable mintDbEx tokEx 2 103 rfl⟩

/-- Witness for C10: with both pagination parameters omitted the response
echoes the defaults. -/
theorem C10_mint_route_default_pagination_witness :
    mintsRoute mintDbNoEvents tokEx none none =
        .ok ⟨DEFAULT_API_LIMIT, 0, 0, []⟩ ∧
      (PaginatedMintResponse.mk DEFAULT_API_LIMIT 0 0 []).limit = DEFAULT_API_LIMIT ∧
      (PaginatedMintResponse.mk DEFAULT_API_LIMIT 0 0 []).offset = 0 :=
  ⟨rfl,
    ((C10_mint_route_default_pagination mintDbNoEvents tokEx).2 _ rfl).1,
    ((C10_mint_route_default_pagination mintDbNoEvents tokEx).2 _ rfl).2⟩

/-! ## The block_offset request parameter

`src/api/routes/stats.ts` (line 90) validates the `block_offset` query
parameter against the anchored pattern: one character in `1`–`9`, then
zero or more digits, then a single final unit character `b` or `d`;
requests that do not match are rejected by the schema layer before the
handler runs.  `blockOffsetAccepts` translates that pattern;
`SpecBlockOffsetToken` renders the spec's words "a positive integer
immediately followed by a single unit character, `b` for blocks or `d`
for days", with the positive integer written as its decimal numeral. -/

/-- Matcher for the pattern tail: zero or more digits followed by one
final unit character `b` or `d`. -/
def digitsThenUnit : List Char → Bool
  | [] => false
  | [u] => u == 'b' || u == 'd'
  | c :: c' :: rest => c.isDigit && digitsThenUnit (c' :: rest)

/-- Translation of the route's `block_offset` pattern from
`src/api/routes/stats.ts`: a `1`–`9` character, then digits, then a unit. -/
def blockOffsetAccepts (s : String) : Bool :=
  match s.data with
  | [] => false
  | c :: rest => ('1' ≤ c && c ≤ '9') && digitsThenUnit rest

/-- Numeric value of a digit character. -/
def charDigitVal (c : Char) : Nat := c.toNat - 48

/-- Decimal numeral of `n`, most significant digit first. -/
def decimalRepr (n : Nat) : List Char :=
  (Nat.digits 10 n).reverse.map Nat.digitChar

/-- The spec's token format: the decimal numeral of a positive integer
immediately followed by a single unit character `b` or `d`. -/
def SpecBlockOffsetToken (s : String) : Prop :=
  ∃ n : Nat, 0 < n ∧ ∃ u : Char, (u = 'b' ∨ u = 'd') ∧ s.data = decimalRepr n ++ [u]

theorem char_eq_of_toNat_eq {a b : Char} (h : a.toNat = b.toNat) : a = b :=
  Char.ext (UInt32.ext h)

theorem isDigit_toNat_bounds {c : Char} (h : c.isDigit = true) :
    48 ≤ c.toNat ∧ c.toNat ≤ 57 := by
  unfold Char.isDigit at h
  simp only [Bool.and_eq_true, decide_eq_true_eq] at h
  exact h

theorem digitChar_toNat {d : Nat} (hd : d < 10) : (Nat.digitChar d).toNat = 48 + d := by
  interval_cases d <;> rfl

theorem digitChar_isDigit {d : Nat} (hd : d < 10) : (Nat.digitChar d).isDigit = true := by
  interval_cases d <;> decide

theorem digitChar_charDigitVal {c : Char} (h : c.isDigit = true) :
    Nat.digitChar (charDigitVal c) = c := by
  obtain ⟨h1, h2⟩ := isDigit_toNat_bounds h
  have h10 : charDigitVal c < 10 := by unfold charDigitVal; omega
  apply char_eq_of_toNat_eq
  rw [digitChar_toNat h10]
  unfold charDigitVal
  omega

theorem one_le_digit_bounds {c : Char} (h1 : '1' ≤ c) (h9 : c ≤ '9') :
    c.isDigit = true ∧ 1 ≤ charDigitVal c ∧ charDigitVal c ≤ 9 := by
  have ha : (49 : Nat) ≤ c.toNat := h1
  have hb : c.toNat ≤ (57 : Nat) := h9
  refine ⟨?_, ?_, ?_⟩
  · unfold Char.isDigit
    simp only [Bool.and_eq_true, decide_eq_true_eq]
    have ha' : (49 : Nat) ≤ c.val.toNat := h1
    have hb' : c.val.toNat ≤ (57 : Nat) := h9
    exact ⟨show (48 : Nat) ≤ c.val.toNat by omega, show c.val.toNat ≤ (57 : Nat) by omega⟩
  · unfold charDigitVal
    omega
  · unfold charDigitVal
    omega

theorem digitChar_pos_bounds {d : Nat} (h1 : 1 ≤ d) (h9 : d ≤ 9) :
    '1' ≤ Nat.digitChar d ∧ Nat.digitChar d ≤ '9' := by
  interval_cases d <;> exact ⟨by decide, by decide⟩

theorem decimalRepr_shape (n : Nat) (hn : 0 < n) :
    ∃ c ds, decimalRepr n = c :: ds ∧ '1' ≤ c ∧ c ≤ '9' ∧ ∀ x ∈ ds, x.isDigit = true := by
  have hne : Nat.digits 10 n ≠ [] := Nat.digits_ne_nil_iff_ne_zero.mpr (by omega)
  have hrne : (Nat.digits 10 n).reverse ≠ [] := by simpa using hne
  obtain ⟨d0, ds0, hds0⟩ := List.exists_cons_of_ne_nil hrne
  have hd0mem : d0 ∈ Nat.digits 10 n := by
    have : d0 ∈ (Nat.digits 10 n).reverse := by rw [hds0]; simp
    simpa using this
  have hd0lt : d0 < 10 := Nat.digits_lt_base (by norm_num) hd0mem
  have hd0ne : d0 ≠ 0 := by
    have hlast := Nat.getLast_digit_ne_zero 10 (show n ≠ 0 by omega)
    have h1 : (Nat.digits 10 n).getLast? = some d0 := by
      rw [← List.head?_reverse, hds0]
      rfl
    have h2 := List.getLast?_eq_getLast (Nat.digits 10 n) hne
    rw [h1] at h2
    injection h2 with h3
    rw [h3]
    exact hlast
  have hbounds := digitChar_pos_bounds (by omega : 1 ≤ d0) (by omega : d0 ≤ 9)
  refine ⟨Nat.digitChar d0, ds0.map Nat.digitChar, ?_, hbounds.1, hbounds.2, ?_⟩
  · unfold decimalRepr
    rw [hds0]
    rfl
  · intro x hx
    rw [List.mem_map] at hx
    obtain ⟨d, hdmem, rfl⟩ := hx
    have hdm : d ∈ Nat.digits 10 n := by
      have : d ∈ (Nat.digits 10 n).reverse := by rw [hds0]; simp [hdmem]
      simpa using this
    exact digitChar_isDigit (Nat.digits_lt_base (by norm_num) hdm)

theorem repr_of_digit_list (c : Char) (ds : List Char)
    (h1 : '1' ≤ c) (h9 : c ≤ '9') (hds : ∀ x ∈ ds, x.isDigit = true) :
    ∃ n, 0 < n ∧ decimalRepr n = c :: ds := by
  have hcdig := one_le_digit_bounds h1 h9
  have hallL : ∀ l ∈ ((c :: ds).map charDigitVal).reverse, l < 10 := by
    intro l hl
    rw [List.mem_reverse, List.mem_map] at hl
    obtain ⟨x, hx, rfl⟩ := hl
    rcases List.mem_cons.mp hx with rfl | hx'
    · omega
    · obtain ⟨_, hb⟩ := isDigit_toNat_bounds (hds x hx')
      unfold charDigitVal
      omega
  have hLne : ((c :: ds).map charDigitVal).reverse ≠ [] := by simp
  have hlast : ∀ (h : ((c :: ds).map charDigitVal).reverse ≠ []),
      (((c :: ds).map charDigitVal).reverse).getLast h ≠ 0 := by
    intro h
    have hsome : (((c :: ds).map charDigitVal).reverse).getLast? = some (charDigitVal c) := by
      rw [List.getLast?_reverse]
      rfl
    have h2 := List.getLast?_eq_getLast (((c :: ds).map charDigitVal).reverse) h
    rw [hsome] at h2
    injection h2 with h3
    rw [← h3]
    omega
  refine ⟨Nat.ofDigits 10 (((c :: ds).map charDigitVal).reverse), ?_, ?_⟩
  · have hd := Nat.digits_ofDigits 10 (by norm_num) _ hallL hlast
    by_contra h0
    have hn0 : Nat.ofDigits 10 (((c :: ds).map charDigitVal).reverse) = 0 := by omega
    rw [hn0, Nat.digits_zero] at hd
    exact hLne hd.symm
  · unfold decimalRepr
    rw [Nat.digits_ofDigits 10 (by norm_num) _ hallL hlast]
    rw [List.reverse_reverse, List.map_map]
    have hpt : ∀ x ∈ c :: ds, (Nat.digitChar ∘ charDigitVal) x = id x := by
      intro x hx
      rcases List.mem_cons.mp hx with rfl | hx'
      · exact digitChar_charDigitVal hcdig.1
      · exact digitChar_charDigitVal (hds x hx')
    rw [List.map_congr_left hpt, List.map_id]

theorem digitsThenUnit_iff : ∀ l : List Char,
    digitsThenUnit l = true ↔
      ∃ ds u, l = ds ++ [u] ∧ (∀ c ∈ ds, c.isDigit = true) ∧ (u = 'b' ∨ u = 'd') := by
  intro l
  induction l with
  | nil =>
      simp only [digitsThenUnit]
      constructor
      · intro h
        cases h
      · rintro ⟨ds, u, heq, -, -⟩
        exfalso
        have := congrArg List.length heq
        simp at this
  | cons c t ih =>
      cases t with
      | nil =>
          constructor
          · intro h
            refine ⟨[], c, rfl, by simp, ?_⟩
            have h' : (c == 'b') = true ∨ (c == 'd') = true := by
              simpa [digitsThenUnit, Bool.or_eq_true] using h
            simpa [beq_iff_eq] using h'
          · rintro ⟨ds, u, heq, hds, hu⟩
            cases ds with
            | nil =>
                simp only [List.nil_append, List.cons.injEq] at heq
                obtain ⟨rfl, -⟩ := heq
                rcases hu with rfl | rfl <;> decide
            | cons d ds' =>
                exfalso
                have := congrArg List.length heq
                simp at this
      | cons c' t' =>
          have hdef : digitsThenUnit (c :: c' :: t') = (c.isDigit && digitsThenUnit (c' :: t')) := rfl
          rw [hdef, Bool.and_eq_true]
          constructor
          · rintro ⟨hcd, hdu⟩
            obtain ⟨ds, u, heq, hds, hu⟩ := ih.mp hdu
            refine ⟨c :: ds, u, by rw [List.cons_append, ← heq], ?_, hu⟩
            intro x hx
            rcases List.mem_cons.mp hx with rfl | hx'
            · exact hcd
            · exact hds x hx'
          · rintro ⟨ds, u, heq, hds, hu⟩
            cases ds with
            | nil =>
                exfalso
                have := congrArg List.length heq
                simp at this
            | cons d ds' =>
                rw [List.cons_append] at heq
                injection heq with hc htail
                subst hc
                refine ⟨hds c (by simp), ?_⟩
                exact ih.mpr ⟨ds', u, htail, fun x hx => hds x (by simp [hx]), hu⟩

/-- C9: a `block_offset` string is accepted by the route's validation
pattern iff it is the decimal numeral of a positive integer immediately
followed by a single unit character `b` (blocks) or `d` (days); every
other form — zero magnitude, missing unit, trailing characters — is
rejected before the handler runs. -/
theorem C9_block_offset_token_format (s : String) :
    blockOffsetAccepts s = true ↔ SpecBlockOffsetToken s := by
  unfold blockOffsetAccepts SpecBlockOffsetToken
  cases hs : s.data with
  | nil =>
      constructor
      · intro h
        cases h
      · rintro ⟨n, hn, u, hu, heq⟩
        exfalso
        have := congrArg List.length heq
        simp at this
  | cons c rest =>
      simp only [Bool.and_eq_true, decide_eq_true_eq]
      constructor
      · rintro ⟨⟨h1, h9⟩, hdu⟩
        obtain ⟨ds, u, hrest, hds, hu⟩ := (digitsThenUnit_iff rest).mp hdu
        obtain ⟨n, hn, hrepr⟩ := repr_of_digit_list c ds h1 h9 hds
        refine ⟨n, hn, u, hu, ?_⟩
        rw [hrepr, hrest]
        rfl
      · rintro ⟨n, hn, u, hu, heq⟩
        obtain ⟨c0, ds0, hrepr, h1, h9, hds⟩ := decimalRepr_shape n hn
        rw [hrepr, List.cons_append] at heq
        injection heq with hc htail
        subst hc
        refine ⟨⟨h1, h9⟩, ?_⟩
        exact (digitsThenUnit_iff rest).mpr ⟨ds0, u, htail, hds, hu⟩

/-- Witness for C9: the spec example `1000b` is accepted and denotes the
positive integer 1000 with the block unit. -/
theorem C9_block_offset_token_format_witness :
    SpecBlockOffsetToken "1000b" ∧ blockOffsetAccepts "12x" = false :=
  ⟨(C9_block_offset_token_format "1000b").mp (by decide), by decide⟩
